import Mathlib

/-!
Verification of the Listen-Attend-Spell decoder (`las/las.py`,
`utils/text.py`, `preprocess.py`) against its specification.

Shallow embedding conventions:
* a rank-1 float tensor is a `List ℚ` (`Vec`), a rank-2 tensor a `List Vec`
  (`Mat`, batch of rows), a rank-3 tensor a `List Mat` (`Mat3`);
* the learned primitives living in TensorFlow variables (embedding matrix,
  recurrent cell, dense projection) and the `attention` / `pblstm` helpers
  imported from `las.utils` (a module not present in the sources) are
  abstract function parameters packed in `Prims` / `ListenerFn`;
* the random draws consumed inside the training branch of the decode loop
  (`tf.random_uniform`, `Categorical.sample`, `tf.layers.dropout`) are an
  explicit per-step oracle stream `ℕ → StepRand`;
* `tf.while_loop` becomes the fuel-indexed `tfWhile`, run with enough fuel
  for the loop guard `t < dec_steps` to drive termination exactly as in
  the source.
-/

/-- Rank-1 tensor: a row of rationals. -/
abbrev Vec := List ℚ

/-- Rank-2 tensor, indexed batch-first. -/
abbrev Mat := List Vec

/-- Rank-3 tensor, indexed batch-first. -/
abbrev Mat3 := List Mat

/-- The configuration object (`arguments.py` namespace) with the fields the
LAS model reads.  `vocab_size` is an integer where `0` plays Python's falsy
role; `vocab` is the attribute written by `LAS.__init__`'s fallback branch,
absent (`none`) until assigned. -/
structure Args where
  vocab_size : ℕ
  vocab : Option ℕ
  embedding_size : ℕ
  enc_units : ℕ
  dec_units : ℕ
  num_enc_layers : ℕ
  num_dec_layers : ℤ
  teacher_forcing_rate : ℚ
  dropout_rate : ℚ
  convert_rate : ℚ
  grad_clip : ℚ
  lr : ℚ

/-- Decoder recurrent state as produced by `_build_decoder_cell`
(`las.py:115-123`): a single tensor for a lone `BasicRNNCell`, an ordered
tuple of per-layer tensors for a `MultiRNNCell`. -/
inductive DecState where
  | single (s : Mat)
  | multi (layers : List Mat)
deriving DecidableEq

/-- Result rank of `_get_hidden_state`: indexing a tuple state yields a
rank-2 tensor, indexing a plain tensor state yields a rank-1 slice. -/
inductive TH where
  | vec (v : Vec)
  | mat (m : Mat)
deriving DecidableEq

/-- Concatenation of a list of rank-2 tensors along the last axis
(row-wise join), as `tf.concat(values, -1)` does for a tuple of states. -/
def hconcatRows (ms : List Mat) : Mat :=
  match ms with
  | [] => []
  | m :: _ => (List.range m.length).map (fun b => (ms.map (fun mm => mm.getD b [])).flatten)

/-- Model of `tf.concat(dec_state, -1)` (`las.py:111`): applied to a tuple
it concatenates the per-layer states along the last axis; applied to a
single tensor it returns that tensor unchanged. -/
def DecState.concatLast : DecState → Mat
  | .single s => s
  | .multi ls => hconcatRows ls

/-- Model of `dec_state[1]` (`las.py:113`): the second layer of a tuple
state (rank 2), or the second batch row of a plain tensor state (rank 1).
An out-of-range index is modelled as the empty tensor (TensorFlow would
raise). -/
def DecState.index1 : DecState → TH
  | .single s => .vec (s.getD 1 [])
  | .multi ls => .mat (ls.getD 1 [])

/-- Model of `Speller._get_hidden_state` (`las.py:109-113`): the branch
condition in the source is `num_dec_layers > 0`. -/
def Speller.getHiddenState (numDecLayers : ℤ) (st : DecState) : TH :=
  if numDecLayers > 0 then .mat st.concatLast else st.index1

/-- The learned primitives of the Speller, abstracted: one embedding-table
row per token id; `attention` from `las.utils` (arguments `h`, `seq_len`,
`state` — the dimension scalars `h_dim`/`s_dim` of the call site are
configuration constants folded into the function) returning (context,
alphas); the recurrent cell `dec_cell`; the final dense projection to
vocabulary logits (`las.py:91-93`). -/
structure Prims where
  embed : ℕ → Vec
  attention : Mat3 → List ℕ → TH → Mat × Mat
  cell : Mat → DecState → Mat × DecState
  dense : Mat → Mat

/-- Model of `Speller._look_up` (`las.py:97-100`): batched embedding-table
lookup. -/
def Speller.lookUp (P : Prims) (ids : List ℕ) : Mat :=
  ids.map P.embed

/-- Index of the first maximal entry of a row, as `tf.argmax(·, -1)`
computes it (ties resolved to the smallest index; the empty row is
modelled as 0). -/
def argmaxIdx (v : Vec) : ℕ :=
  (v.enum.foldl (fun best p => if p.2 > best.2 then p else best) (0, v.headD 0)).1

/-- Model of `Speller.decode` (`las.py:79-95`): one decode step — state
summary via `_get_hidden_state`, attention, concatenation of the previous
character embedding with the context (`las.py:88`), recurrent cell, dense
projection to logits. -/
def Speller.decode (P : Prims) (A : Args) (encOut : Mat3) (encLen : List ℕ)
    (decState : DecState) (prevChar : Mat) : Mat × DecState × Mat :=
  let sI := Speller.getHiddenState A.num_dec_layers decState
  let ca := P.attention encOut encLen sI
  let decIn := List.zipWith (fun p c => p ++ c) prevChar ca.1
  let oc := P.cell decIn decState
  let curChar := P.dense oc.1
  (curChar, oc.2, ca.2)

/-- Realized random draws of one loop iteration: `u` is the value of
`tf.random_uniform([], 0, 1)` (`las.py:39`), `sample` the realized
`tf.distributions.Categorical(logits).sample(1)[0]` of `_sample_char`
(`las.py:102-107`), `drop` the realized training-mode
`tf.layers.dropout` mask application (`las.py:44-45`). -/
structure StepRand where
  u : ℚ
  sample : Mat → List ℕ
  drop : Mat → Mat

/-- Model of the loop body `iteration` (`las.py:35-53`): one decode step,
then choice of the next input embedding — in training a teacher-forcing
coin `teacher_forcing_rate > u` selects the ground-truth column
`teacher[:, t]`, otherwise a categorical sample from the current logits,
and dropout is applied to the chosen embedding; in inference the argmax
token's embedding.  The step's logits are appended along the time axis.
(A `t` beyond the teacher tensor's width is a caller contract violation
in the source and is modelled as reading token 0.) -/
def Speller.iteration (P : Prims) (A : Args) (encOut : Mat3) (encLen : List ℕ)
    (teacher : List (List ℕ)) (isTraining : Bool) (r : StepRand) (t : ℕ)
    (c : DecState × Mat × Mat3) : DecState × Mat × Mat3 :=
  let res := Speller.decode P A encOut encLen c.1 c.2.1
  let curChar := res.1
  let prevChar :=
    if isTraining then
      r.drop (if A.teacher_forcing_rate > r.u then
                Speller.lookUp P (teacher.map (fun row => row.getD t 0))
              else
                Speller.lookUp P (r.sample curChar))
    else
      Speller.lookUp P (curChar.map argmaxIdx)
  let output := List.zipWith (fun rows cc => rows ++ [cc]) c.2.2 curChar
  (res.2.1, prevChar, output)

/-- Zero state of the decoder cell (`dec_cell.zero_state`, `las.py:30`):
per `_build_decoder_cell`, a tuple of per-layer zero tensors for more than
one layer, otherwise a single zero tensor of shape `[batch, dec_units]`. -/
def Speller.zeroState (A : Args) (b : ℕ) : DecState :=
  if A.num_dec_layers > 1 then
    .multi (List.replicate A.num_dec_layers.toNat
      (List.replicate b (List.replicate A.dec_units 0)))
  else
    .single (List.replicate b (List.replicate A.dec_units 0))

/-- Loop-entry carry of `Speller.__call__` (`las.py:29-32`): the zero
decoder state, the embedding of the all-ones token-id vector
(`tf.ones(batch, int32)`, i.e. token id 1 for every utterance), and the
all-zeros `[batch, 1, vocab_size]` output placeholder. -/
def Speller.initCarry (P : Prims) (A : Args) (b : ℕ) : DecState × Mat × Mat3 :=
  (Speller.zeroState A b,
   Speller.lookUp P (List.replicate b 1),
   List.replicate b [List.replicate A.vocab_size 0])

/-- Fuel-indexed model of `tf.while_loop(is_stop, iteration, ...)`
(`las.py:56-73`): while `t < decSteps`, run the body and advance `t`.
Called with fuel `decSteps.toNat`, which is enough for the guard to be
the sole stopping criterion, exactly as in the source. -/
def tfWhile {σ : Type} (body : ℕ → σ → σ) (decSteps : ℤ) : ℕ → ℕ → σ → σ
  | 0, _, s => s
  | fuel + 1, t, s =>
      if (t : ℤ) < decSteps then tfWhile body decSteps fuel (t + 1) (body t s) else s

/-- Model of `Speller.__call__` (`las.py:27-77`): run the decode loop from
the initial carry and strip the leading placeholder row of the time axis
(`output[:, 1:, :]`, `las.py:75`). -/
def Speller.call (P : Prims) (A : Args) (encOut : Mat3) (encLen : List ℕ)
    (decSteps : ℤ) (teacher : List (List ℕ)) (isTraining : Bool)
    (rng : ℕ → StepRand) : Mat3 :=
  let b := encOut.length
  let fin := tfWhile
    (fun t c => Speller.iteration P A encOut encLen teacher isTraining (rng t) t c)
    decSteps decSteps.toNat 0 (Speller.initCarry P A b)
  fin.2.2.map (List.drop 1)

/-- Model of `tf.to_int32` applied to a nonnegative-or-negative rational:
truncation toward zero. -/
def truncToInt (q : ℚ) : ℤ :=
  if 0 ≤ q then q.floor else -((-q).floor)

/-- Decode-step estimate of `LAS.inference` (`las.py:198-200`):
`to_int32(convert_rate * to_float(reduce_max(audiolen)))`.  The maximum of
an empty length vector is modelled as 0. -/
def LAS.inferDecSteps (convertRate : ℚ) (audiolen : List ℕ) : ℤ :=
  truncToInt (convertRate * ((audiolen.foldl max 0 : ℕ) : ℚ))

/-- The Listener (`las.py:6-16`), abstracted: `pblstm` lives in
`las.utils`, a module not present in the sources; it is a pure function of
(inputs, audiolen, is_training) returning (enc_out, enc_state, enc_len). -/
structure ListenerFn where
  run : Mat3 → List ℕ → Bool → Mat3 × Mat × List ℕ

/-- Model of `LAS.inference` (`las.py:195-206`): estimate the decode step
count, run the Listener and the Speller with `is_training=False` (the
Speller's `teacher` argument defaults to `None`, modelled as `[]`), and
return the logits together with their per-step argmax token ids. -/
def LAS.inference (P : Prims) (lst : ListenerFn) (A : Args)
    (audio : Mat3) (audiolen : List ℕ) (rng : ℕ → StepRand) :
    Mat3 × List (List ℕ) :=
  let decSteps := LAS.inferDecSteps A.convert_rate audiolen
  let enc := lst.run audio audiolen false
  let logits := Speller.call P A enc.1 enc.2.2 decSteps [] false rng
  (logits, logits.map (fun row => row.map argmaxIdx))

/-- Model of `LAS._get_loss` (`las.py:208-215`).  The per-position values
of `tf.nn.softmax_cross_entropy_with_logits` are transcendental in the
logits and enter here as the abstract rank-2 input `crossEntropy`; the
padding mask `1 - cast(y == 0)` and the normalization
`sum(ce * mask) / (sum(mask) + 1e-9)` are translated from the source. -/
def LAS.getLoss (crossEntropy : List (List ℚ)) (y : List (List ℕ)) : ℚ :=
  let mask := y.map (fun row => row.map (fun tok => if tok = 0 then (0 : ℚ) else 1))
  let num := (List.zipWith (fun ce m => (List.zipWith (· * ·) ce m).sum) crossEntropy mask).sum
  num / ((mask.map List.sum).sum + 1 / 1000000000)

/-- Model of the `args` mutation in `LAS.__init__` (`las.py:142-143`):
when `args.vocab_size` is falsy the attribute `args.vocab` is assigned
`len(char2id)`; nothing else is written. -/
def LAS.initArgs (args : Args) (char2id : List (String × ℕ)) : Args :=
  if args.vocab_size = 0 then { args with vocab := some char2id.length } else args

/-- Model of `lookup_dicts` (`utils/text.py:4-21`): enumerate the special
tokens followed by the 26 uppercase ASCII letters, returning the
token-to-id and id-to-token association lists. -/
def lookup_dicts (specials : List String) : List (String × ℕ) × List (ℕ × String) :=
  let alphas := (List.range 26).map (fun i => toString (Char.ofNat (65 + i)))
  let tokens := specials ++ alphas
  (tokens.enum.map (fun p => (p.2, p.1)), tokens.enum.map (fun p => (p.1, p.2)))

/-- The reserved-token list passed to the tokenizer (`preprocess.py:210`). -/
def specialTokens : List String :=
  ["<PAD>", "<SOS>", "<EOS>", "<SPACE>"]

/-- The start-of-sequence token string. -/
def sosToken : String :=
  specialTokens.getD 1 ""

/-- Modelled from the spec: the masked attention scores, exponentiated.
`attention` is defined in `las/utils.py`, which is absent from the
sources; spec §4.2 fixes the contract — compatibility scores are masked
before normalization by setting padded positions to a large negative
value, whose exponential is idealized here as exactly 0, so the masked
exponentiated scores are the exponentials of the valid prefix followed by
zeros. -/
def maskedExp (e : ℚ → ℚ) (scores : List ℚ) (validLen : ℕ) : List ℚ :=
  (scores.take validLen).map e ++ List.replicate (scores.length - validLen) 0

/-- Modelled from the spec: the alignment weights of one utterance —
softmax normalization of the masked scores (spec §4.2: masking happens
before the normalization, never by renormalizing afterwards).  `e` stands
for the exponential applied to a score. -/
def attentionAlphas (e : ℚ → ℚ) (scores : List ℚ) (validLen : ℕ) : List ℚ :=
  (maskedExp e scores validLen).map (fun w => w / (maskedExp e scores validLen).sum)

/-- Concrete primitive instance used by witnesses: identity-like cell and
dense layer, single-row context. -/
def witnessPrims : Prims :=
  ⟨fun i => [(i : ℚ)],
   fun eo _ _ => (eo.map (fun _ => [0]), eo.map (fun _ => [])),
   fun x st => (x, st),
   fun x => x⟩

/-- Concrete randomness stream used by witnesses: coin 0, constant-token
sampler, identity dropout. -/
def witnessRng : ℕ → StepRand :=
  fun _ => ⟨0, fun m => m.map (fun _ => 0), fun m => m⟩

/-- Concrete configuration used by witnesses. -/
def witnessArgs : Args :=
  ⟨30, none, 8, 4, 4, 2, 1, 1 / 2, 1 / 10, 1 / 2, 5, 1 / 1000⟩

/-- Pointwise-equal bodies make `tfWhile` agree. -/
theorem tfWhile_congr {σ : Type} (f g : ℕ → σ → σ)
    (h : ∀ t s, f t s = g t s) (d : ℤ) :
    ∀ (fuel t : ℕ) (s : σ), tfWhile f d fuel t s = tfWhile g d fuel t s := by
  intro fuel
  induction fuel with
  | zero => intro t s; rfl
  | succ n ih =>
    intro t s
    simp only [tfWhile]
    split
    · rw [h]; exact ih _ _
    · rfl

/-- With enough fuel, `tfWhile` is a left fold of the body over the list of
step indices the guard admits. -/
theorem tfWhile_eq_foldl {σ : Type} (body : ℕ → σ → σ) (d : ℤ) :
    ∀ (fuel t : ℕ) (s : σ), d ≤ (t : ℤ) + fuel →
      tfWhile body d fuel t s
        = (List.range' t (d - t).toNat).foldl (fun s i => body i s) s := by
  intro fuel
  induction fuel with
  | zero =>
    intro t s h
    have h0 : ((d : ℤ) - t).toNat = 0 := by omega
    simp [tfWhile, h0]
  | succ n ih =>
    intro t s h
    simp only [tfWhile]
    split
    · rename_i ht
      have h1 : ((d : ℤ) - t).toNat = ((d : ℤ) - (t + 1)).toNat + 1 := by omega
      have h2 : List.range' t (((d : ℤ) - (t + 1)).toNat + 1)
          = t :: List.range' (t + 1) ((d : ℤ) - (t + 1)).toNat := rfl
      rw [h1, h2, List.foldl_cons]
      exact ih (t + 1) (body t s) (by omega)
    · rename_i ht
      have h0 : ((d : ℤ) - t).toNat = 0 := by omega
      simp [h0]

/-- Appending one entry to every row of a batched time axis raises every
row length by one. -/
theorem zipWith_append_rows (k : ℕ) :
    ∀ (out : Mat3) (cur : Mat), (∀ row ∈ out, row.length = k) →
      ∀ row ∈ List.zipWith (fun rows cc => rows ++ [cc]) out cur,
        row.length = k + 1 := by
  intro out
  induction out with
  | nil => intro cur h row hrow; simp at hrow
  | cons a as ih =>
    intro cur h row hrow
    cases cur with
    | nil => simp at hrow
    | cons c cs =>
      simp only [List.zipWith, List.mem_cons] at hrow
      rcases hrow with h1 | h2
      · subst h1; simp [h a (by simp)]
      · exact ih cs (fun r hr => h r (by simp [hr])) row h2

/-- One loop iteration preserves the batch dimension of the carried
previous-character embedding and of the accumulated output, and grows
every output row by exactly one time step, provided the abstract
primitives preserve the batch dimension (the shape invariants TensorFlow
enforces on the graph, declared at `las.py:60-69`). -/
theorem iteration_shape (P : Prims) (A : Args) (encOut : Mat3) (encLen : List ℕ)
    (teacher : List (List ℕ)) (isTraining : Bool) (r : StepRand) (t : ℕ)
    (b k : ℕ)
    (hteach : teacher.length = b)
    (hatt : ∀ s, ((P.attention encOut encLen s).1).length = b)
    (hcell : ∀ x st, x.length = b → ((P.cell x st).1).length = b)
    (hdense : ∀ x, x.length = b → (P.dense x).length = b)
    (hsample : ∀ m, m.length = b → (r.sample m).length = b)
    (hdrop : ∀ m, m.length = b → (r.drop m).length = b)
    (c : DecState × Mat × Mat3)
    (hpc : c.2.1.length = b) (hout : c.2.2.length = b)
    (hrows : ∀ row ∈ c.2.2, row.length = k) :
    (Speller.iteration P A encOut encLen teacher isTraining r t c).2.1.length = b
    ∧ (Speller.iteration P A encOut encLen teacher isTraining r t c).2.2.length = b
    ∧ ∀ row ∈ (Speller.iteration P A encOut encLen teacher isTraining r t c).2.2,
        row.length = k + 1 := by
  obtain ⟨st, pc, out⟩ := c
  simp only at hpc hout hrows
  have hcur : (Speller.decode P A encOut encLen st pc).1.length = b := by
    simp only [Speller.decode]
    apply hdense
    apply hcell
    rw [List.length_zipWith, hpc, hatt, Nat.min_self]
  refine ⟨?_, ?_, ?_⟩
  · simp only [Speller.iteration]
    cases isTraining
    · simpa [Speller.lookUp] using hcur
    · simp only [if_true, reduceIte]
      apply hdrop
      split
      · simp [Speller.lookUp, hteach]
      · simp only [Speller.lookUp, List.length_map]
        exact hsample _ hcur
  · simp only [Speller.iteration, List.length_zipWith, hout, hcur, Nat.min_self]
  · simp only [Speller.iteration]
    exact zipWith_append_rows k out _ hrows

/-- Folding the loop body over any list of step indices preserves the batch
dimension and grows every output row by the number of steps taken. -/
theorem foldl_iteration_shape (P : Prims) (A : Args) (encOut : Mat3)
    (encLen : List ℕ) (teacher : List (List ℕ)) (isTraining : Bool)
    (rng : ℕ → StepRand) (b : ℕ)
    (hteach : teacher.length = b)
    (hatt : ∀ s, ((P.attention encOut encLen s).1).length = b)
    (hcell : ∀ x st, x.length = b → ((P.cell x st).1).length = b)
    (hdense : ∀ x, x.length = b → (P.dense x).length = b)
    (hsample : ∀ t m, m.length = b → ((rng t).sample m).length = b)
    (hdrop : ∀ t m, m.length = b → ((rng t).drop m).length = b) :
    ∀ (ts : List ℕ) (k : ℕ) (c : DecState × Mat × Mat3),
      c.2.1.length = b → c.2.2.length = b → (∀ row ∈ c.2.2, row.length = k) →
      ((ts.foldl (fun s t =>
          Speller.iteration P A encOut encLen teacher isTraining (rng t) t s) c).2.1.length = b
      ∧ (ts.foldl (fun s t =>
          Speller.iteration P A encOut encLen teacher isTraining (rng t) t s) c).2.2.length = b
      ∧ ∀ row ∈ (ts.foldl (fun s t =>
          Speller.iteration P A encOut encLen teacher isTraining (rng t) t s) c).2.2,
          row.length = k + ts.length) := by
  intro ts
  induction ts with
  | nil =>
    intro k c h1 h2 h3
    simpa using ⟨h1, h2, h3⟩
  | cons t ts ih =>
    intro k c h1 h2 h3
    obtain ⟨i1, i2, i3⟩ := iteration_shape P A encOut encLen teacher isTraining
      (rng t) t b k hteach hatt hcell hdense (hsample t) (hdrop t) c h1 h2 h3
    obtain ⟨j1, j2, j3⟩ := ih (k + 1)
      (Speller.iteration P A encOut encLen teacher isTraining (rng t) t c) i1 i2 i3
    refine ⟨by simpa using j1, by simpa using j2, ?_⟩
    intro row hrow
    have := j3 row (by simpa using hrow)
    simpa [Nat.add_assoc, Nat.add_comm 1 ts.length] using this

/-- C1: for every encoder output batch and every step count N ≥ 1, the
Speller decode loop returns, for each of the `b` utterances, a logits
sequence of exactly N per-step vectors — whichever branch (teacher forcing
or sampling) each iteration takes — the leading all-zeros placeholder row
of the accumulator being stripped from the result. -/
theorem speller_c1_output_len (P : Prims) (A : Args) (encOut : Mat3)
    (encLen : List ℕ) (teacher : List (List ℕ)) (isTraining : Bool)
    (rng : ℕ → StepRand) (N : ℤ) (b : ℕ)
    (hb : encOut.length = b)
    (hteach : teacher.length = b)
    (hatt : ∀ s, ((P.attention encOut encLen s).1).length = b)
    (hcell : ∀ x st, x.length = b → ((P.cell x st).1).length = b)
    (hdense : ∀ x, x.length = b → (P.dense x).length = b)
    (hsample : ∀ t m, m.length = b → ((rng t).sample m).length = b)
    (hdrop : ∀ t m, m.length = b → ((rng t).drop m).length = b)
    (hN : 1 ≤ N) :
    (Speller.call P A encOut encLen N teacher isTraining rng).map List.length
      = List.replicate b N.toNat := by
  simp only [Speller.call]
  rw [tfWhile_eq_foldl _ N N.toNat 0 _ (by have := Int.self_le_toNat N; omega)]
  have hcast : ((N : ℤ) - ((0 : ℕ) : ℤ)).toNat = N.toNat := by omega
  rw [hcast]
  obtain ⟨f1, f2, f3⟩ := foldl_iteration_shape P A encOut encLen teacher isTraining
    rng b hteach hatt hcell hdense hsample hdrop (List.range' 0 N.toNat) 1
    (Speller.initCarry P A encOut.length)
    (by simp [Speller.initCarry, Speller.lookUp, hb])
    (by simp [Speller.initCarry, hb])
    (by
      intro row hrow
      simp only [Speller.initCarry] at hrow
      rw [List.eq_of_mem_replicate hrow]
      rfl)
  rw [List.eq_replicate_iff]
  refine ⟨by simp [f2], ?_⟩
  intro x hx
  simp only [List.mem_map] at hx
  obtain ⟨row, hrow, rfl⟩ := hx
  obtain ⟨row0, hrow0, rfl⟩ := hrow
  rw [List.length_drop, f3 row0 hrow0, List.length_range']
  omega

/-- Witness for C1 at a concrete batch of one utterance and N = 2. -/
theorem speller_c1_output_len_inst :
    (Speller.call witnessPrims witnessArgs [[[0]]] [1] 2 [[0, 0]] true
        witnessRng).map List.length
      = List.replicate 1 2 :=
  speller_c1_output_len witnessPrims witnessArgs [[[0]]] [1] [[0, 0]] true
    witnessRng 2 1 rfl rfl (fun _ => rfl) (fun x _ h => h) (fun x h => h)
    (fun _ m h => by simpa [witnessRng] using h) (fun _ _ h => h) (by decide)

/-- C9: the decode loop is total in the step count — for any non-positive
`decSteps` the loop body never runs and the Speller returns one empty
logits row per utterance (shape `(batch, 0, vocab)`); and the step count
computed by `LAS.inference` can indeed be 0 for a short input, so this is
reachable at the public interface. -/
theorem speller_c9_nonpos_steps_empty (P : Prims) (A : Args) (encOut : Mat3)
    (encLen : List ℕ) (teacher : List (List ℕ)) (isTraining : Bool)
    (rng : ℕ → StepRand) (d : ℤ) (hd : d ≤ 0) :
    Speller.call P A encOut encLen d teacher isTraining rng
        = List.replicate encOut.length []
    ∧ LAS.inferDecSteps (1 / 2) [1] = 0 := by
  constructor
  · have h0 : d.toNat = 0 := by omega
    rw [Speller.call, h0]
    simp [tfWhile, Speller.initCarry, List.map_replicate]
  · norm_num [LAS.inferDecSteps, truncToInt, Rat.floor]

/-- Witness for C9 at step count 0 on a concrete one-utterance batch. -/
theorem speller_c9_nonpos_steps_empty_inst :
    Speller.call witnessPrims witnessArgs [[[0]]] [1] 0 [[0, 0]] true witnessRng
        = List.replicate 1 []
    ∧ LAS.inferDecSteps (1 / 2) [1] = 0 :=
  speller_c9_nonpos_steps_empty witnessPrims witnessArgs [[[0]]] [1] [[0, 0]]
    true witnessRng 0 (by decide)

/-- In inference mode the loop body never consults the per-step random
draws, so the Speller's output does not depend on them. -/
theorem call_not_training_rng (P : Prims) (A : Args) (encOut : Mat3)
    (encLen : List ℕ) (d : ℤ) (teacher : List (List ℕ))
    (rng₁ rng₂ : ℕ → StepRand) :
    Speller.call P A encOut encLen d teacher false rng₁
      = Speller.call P A encOut encLen d teacher false rng₂ := by
  simp only [Speller.call]
  rw [tfWhile_congr
    (fun t c => Speller.iteration P A encOut encLen teacher false (rng₁ t) t c)
    (fun t c => Speller.iteration P A encOut encLen teacher false (rng₂ t) t c)
    (fun _ _ => rfl) d]

/-- C3: inference-mode decoding is deterministic — `LAS.inference` gives
the same logits and argmax token ids whatever the realized random draws
are (no sampling and no dropout are consulted on that path), and at every
inference step the next-step input embedding is the embedding of the
argmax token of the current logits. -/
theorem las_c3_inference_deterministic (P : Prims) (lst : ListenerFn)
    (A : Args) (audio : Mat3) (audiolen : List ℕ)
    (rng₁ rng₂ : ℕ → StepRand) :
    LAS.inference P lst A audio audiolen rng₁
        = LAS.inference P lst A audio audiolen rng₂
    ∧ ∀ (encOut : Mat3) (encLen : List ℕ) (teacher : List (List ℕ))
        (r : StepRand) (t : ℕ) (c : DecState × Mat × Mat3),
        (Speller.iteration P A encOut encLen teacher false r t c).2.1
          = Speller.lookUp P
              (((Speller.decode P A encOut encLen c.1 c.2.1).1).map argmaxIdx) := by
  constructor
  · simp only [LAS.inference]
    rw [call_not_training_rng P A _ _ _ _ rng₁ rng₂]
  · intro encOut encLen teacher r t c
    rfl

/-- C5: at every training step the next-step input embedding is chosen by
the teacher-forcing coin — the ground-truth column at `t` when
`teacher_forcing_rate > u`, otherwise the token returned by the
categorical sampler on the current step's logits — and dropout is applied
to the chosen embedding in either case. -/
theorem speller_c5_training_next_input (P : Prims) (A : Args) (encOut : Mat3)
    (encLen : List ℕ) (teacher : List (List ℕ)) (r : StepRand) (t : ℕ)
    (c : DecState × Mat × Mat3) :
    (Speller.iteration P A encOut encLen teacher true r t c).2.1
      = r.drop (if A.teacher_forcing_rate > r.u then
                  Speller.lookUp P (teacher.map (fun row => row.getD t 0))
                else
                  Speller.lookUp P
                    (r.sample (Speller.decode P A encOut encLen c.1 c.2.1).1)) := rfl

/-- Counterexample to C2 as stated: at `num_dec_layers = 1` the
decoder-state summary is the concatenation branch of
`_get_hidden_state` (the branch condition in the source is
`num_dec_layers > 0`, not `> 1`), not the `dec_state[1]` extraction the
claim ascribes to the single-layer case. -/
theorem speller_c2_single_layer_cex :
    Speller.getHiddenState 1 (DecState.single [[1, 2], [3, 4]])
        = TH.mat (DecState.single [[1, 2], [3, 4]]).concatLast
    ∧ Speller.getHiddenState 1 (DecState.single [[1, 2], [3, 4]])
        ≠ (DecState.single [[1, 2], [3, 4]]).index1 := by
  decide

/-- C2 amended: for every positive layer count (the source tests
`num_dec_layers > 0`) the decoder-state summary passed to attention is
`tf.concat(dec_state, -1)` — for a multi-layer decoder the concatenation
of all per-layer states, and for a single-layer decoder that same
concatenation applied to the lone state tensor, which returns the state
itself; the `dec_state[1]` extraction is unreachable for positive layer
counts. -/
theorem speller_c2_hidden_state_amended (n : ℤ) (hn : 1 ≤ n) (st : DecState) :
    Speller.getHiddenState n st = TH.mat st.concatLast := by
  simp [Speller.getHiddenState, show n > 0 by omega]

/-- Witness for the amended C2 at one layer and a concrete state. -/
theorem speller_c2_hidden_state_amended_inst :
    Speller.getHiddenState 1 (DecState.single [[1, 2]])
      = TH.mat (DecState.single [[1, 2]]).concatLast :=
  speller_c2_hidden_state_amended 1 (by decide) (DecState.single [[1, 2]])

/-- Zipping a row against an all-zero mask row and summing gives zero. -/
theorem zip_mul_sum_zero (l : List ℚ) : ∀ (m : List ℚ), (∀ x ∈ m, x = 0) →
    (List.zipWith (· * ·) l m).sum = 0 := by
  induction l with
  | nil => intro m _; simp
  | cons a l ih =>
    intro m hm
    cases m with
    | nil => simp
    | cons x xs =>
      have hx : x = 0 := hm x (by simp)
      simp [hx, ih xs (fun y hy => hm y (by simp [hy]))]

/-- The masked cross-entropy numerator vanishes on an all-zero mask. -/
theorem zip_rows_sum_zero (ce : List (List ℚ)) : ∀ (mask : List (List ℚ)),
    (∀ mrow ∈ mask, ∀ x ∈ mrow, x = 0) →
    (List.zipWith (fun c m => (List.zipWith (· * ·) c m).sum) ce mask).sum = 0 := by
  induction ce with
  | nil => intro mask _; simp
  | cons c cs ih =>
    intro mask hm
    cases mask with
    | nil => simp
    | cons m ms =>
      simp [zip_mul_sum_zero c m (hm m (by simp)),
            ih ms (fun r hr => hm r (by simp [hr]))]

/-- C4: the training loss masks exactly the positions whose ground-truth
token is PAD (id 0) and divides by the mask sum plus 1e-9, so a batch in
which every ground-truth token is PAD yields loss 0 — not NaN and not a
division-by-zero failure. -/
theorem las_c4_all_pad_loss_zero (ce : List (List ℚ)) (y : List (List ℕ))
    (h : ∀ row ∈ y, ∀ tok ∈ row, tok = 0) :
    LAS.getLoss ce y = 0 := by
  simp only [LAS.getLoss]
  rw [zip_rows_sum_zero]
  · exact zero_div _
  · intro mrow hmrow x hx
    obtain ⟨yrow, hyrow, rfl⟩ := List.mem_map.1 hmrow
    obtain ⟨tok, htok, rfl⟩ := List.mem_map.1 hx
    simp [h yrow hyrow tok htok]

/-- Witness for C4 on a concrete all-PAD batch. -/
theorem las_c4_all_pad_loss_zero_inst : LAS.getLoss [[5, 7]] [[0, 0]] = 0 :=
  las_c4_all_pad_loss_zero [[5, 7]] [[0, 0]] (by decide)

/-- Dividing every entry of a list by a constant divides its sum. -/
theorem sum_map_div (l : List ℚ) (z : ℚ) :
    (l.map (fun x => x / z)).sum = l.sum / z := by
  induction l with
  | nil => simp
  | cons a t ih => simp [ih, add_div]

/-- C6: for an utterance with `v` valid encoder positions (1 ≤ v ≤ time
steps), the alignment weights of the spec-modelled attention sum to 1 over
exactly the valid positions and are exactly 0 at every padded position,
the masking having been applied to the scores before the softmax
normalization.  `e` is the (strictly positive) exponential applied to a
score. -/
theorem attention_c6_alphas_mass (e : ℚ → ℚ) (scores : List ℚ) (v : ℕ)
    (hpos : ∀ x, 0 < e x) (hv : 1 ≤ v) (hle : v ≤ scores.length) :
    ((attentionAlphas e scores v).take v).sum = 1
    ∧ (attentionAlphas e scores v).drop v
        = List.replicate (scores.length - v) 0 := by
  have hlenA : ((scores.take v).map e).length = v := by
    simp [Nat.min_eq_left hle]
  have hZ : (maskedExp e scores v).sum = ((scores.take v).map e).sum := by
    simp [maskedExp, List.sum_append]
  have hZpos : 0 < (maskedExp e scores v).sum := by
    rw [hZ]
    apply List.sum_pos
    · intro x hx
      obtain ⟨y, _, rfl⟩ := List.mem_map.1 hx
      exact hpos y
    · intro hnil
      rw [hnil] at hlenA
      simp at hlenA
      omega
  have hsplit : attentionAlphas e scores v
      = ((scores.take v).map e).map (fun w => w / (maskedExp e scores v).sum)
        ++ (List.replicate (scores.length - v) (0 : ℚ)).map
            (fun w => w / (maskedExp e scores v).sum) := by
    rw [attentionAlphas]
    nth_rewrite 2 [maskedExp]
    rw [List.map_append]
  have hlenA2 : (((scores.take v).map e).map
      (fun w => w / (maskedExp e scores v).sum)).length = v := by
    simpa using hlenA
  constructor
  · rw [hsplit, List.take_left' hlenA2, sum_map_div, hZ]
    rw [hZ] at hZpos
    exact div_self (ne_of_gt hZpos)
  · rw [hsplit, List.drop_left' hlenA2, List.map_replicate, zero_div]

/-- Witness for C6 at a two-step utterance with one valid position. -/
theorem attention_c6_alphas_mass_inst :
    ((attentionAlphas (fun _ => 1) [3, 4] 1).take 1).sum = 1
    ∧ (attentionAlphas (fun _ => 1) [3, 4] 1).drop 1 = List.replicate 1 0 := by
  have h := attention_c6_alphas_mass (fun _ => 1) [3, 4] 1
    (fun _ => one_pos) (by decide) (by decide)
  simpa using h

/-- C7: `LAS.inference` computes the decode step count as the configured
`convert_rate` times the maximum valid input length, truncated to an
integer, runs the Listener and then the Speller in non-training mode with
that step count, and returns the raw logits together with their per-step
argmax token ids. -/
theorem las_c7_inference_composition (P : Prims) (lst : ListenerFn)
    (A : Args) (audio : Mat3) (audiolen : List ℕ) (rng : ℕ → StepRand) :
    LAS.inference P lst A audio audiolen rng
      = (Speller.call P A (lst.run audio audiolen false).1
            (lst.run audio audiolen false).2.2
            (truncToInt (A.convert_rate * ((audiolen.foldl max 0 : ℕ) : ℚ)))
            [] false rng,
         (Speller.call P A (lst.run audio audiolen false).1
            (lst.run audio audiolen false).2.2
            (truncToInt (A.convert_rate * ((audiolen.foldl max 0 : ℕ) : ℚ)))
            [] false rng).map (fun row => row.map argmaxIdx)) := rfl

/-- C8: at decode-loop entry the carried decoder state is the cell's zero
state and the previous-token embedding is the embedding-table row of the
fixed token id 1 for every utterance — in both training and inference
mode, since `Speller.call` builds the same initial carry regardless of the
mode — and under the reserved-token ordering of `preprocess.py` the
tokenizer maps `<SOS>` to id 1. -/
theorem speller_c8_init_state (P : Prims) (A : Args) (b : ℕ) :
    Speller.initCarry P A b
      = (Speller.zeroState A b, List.replicate b (P.embed 1),
         List.replicate b [List.replicate A.vocab_size 0])
    ∧ (lookup_dicts specialTokens).1.lookup sosToken = some 1 := by
  constructor
  · simp [Speller.initCarry, Speller.lookUp, List.map_replicate]
  · decide

/-- C10: `LAS.__init__` never writes `args.vocab_size` — it is unchanged
by construction for every `args`; when `vocab_size` is falsy the fallback
writes the separate attribute `args.vocab` instead; and the Speller (which
reads `vocab_size`, never `vocab`) computes the same result from the
constructed `args` as from the original. -/
theorem las_c10_init_frame (args : Args) (char2id : List (String × ℕ))
    (P : Prims) (encOut : Mat3) (encLen : List ℕ) (d : ℤ)
    (teacher : List (List ℕ)) (isTraining : Bool) (rng : ℕ → StepRand) :
    (LAS.initArgs args char2id).vocab_size = args.vocab_size
    ∧ (LAS.initArgs { args with vocab_size := 0 } char2id).vocab
        = some char2id.length
    ∧ Speller.call P (LAS.initArgs args char2id) encOut encLen d teacher
        isTraining rng
      = Speller.call P args encOut encLen d teacher isTraining rng := by
  refine ⟨?_, ?_, ?_⟩
  · rw [LAS.initArgs]
    split <;> rfl
  · simp [LAS.initArgs]
  · rw [LAS.initArgs]
    split
    · cases args
      rfl
    · rfl
